import Mathlib

/-!
Verification of the RSA repository (src/core.py, src/rsa.py, src/utils.py).

The Python code is shallowly embedded: Python's arbitrary-precision
integers become `ℕ` (all values here are non-negative; the one signed
spot, the Bezout coefficients of `extended_gcd`, uses `ℤ`, and Python's
`%` with a positive modulus agrees with `Int.emod`).  Python's
three-argument `pow(a, d, n)` is embedded as `powMod`, a binary
modular exponentiation (extensionally `a ^ d % n`, see `powMod_eq`),
so that concrete runs are kernel-computable.  The process-wide random
source (`random.getrandbits`, `random.randrange`) is passed in as
explicit oracle values: each random draw is one element of a list, and
a loop that may draw forever takes a list of draws and returns
`Option` — `none` models the loop exhausting the supplied draws
without returning, and is the only "failure" the code has (the source
raises nothing and validates nothing).  Loops are compiled to
structural recursion on an explicit fuel argument where Python's
recursion/loop is governed by a decreasing measure, keeping every
definition kernel-reducible.
-/

namespace RSA

/-- `RSAKey` (src/core.py lines 6-9): an immutable triple of
non-negative arbitrary-precision integers. -/
structure RSAKey where
  n : ℕ
  e : ℕ
  d : ℕ
deriving DecidableEq

/-! ## Modular exponentiation: Python's `pow(a, d, n)` -/

/-- Binary modular exponentiation, fuel-structured so the kernel can run
it.  `fuel` only bounds the recursion depth (`d ≤ fuel` at every call),
it never changes the value; see `powModAux_eq`. -/
def powModAux (n : ℕ) : ℕ → ℕ → ℕ → ℕ
  | 0, _, _ => 1 % n
  | fuel+1, a, d =>
    if d = 0 then 1 % n
    else
      let h := powModAux n fuel (a * a % n) (d / 2)
      if d % 2 = 1 then h * a % n else h

/-- Python's `pow(a, d, n)` for a positive modulus. -/
def powMod (a d n : ℕ) : ℕ := powModAux n d (a % n) d

theorem powModAux_eq (n : ℕ) : ∀ fuel a d, d ≤ fuel → powModAux n fuel a d = a ^ d % n := by
  intro fuel
  induction fuel with
  | zero => intro a d hd; interval_cases d; simp [powModAux]
  | succ fuel ih =>
    intro a d hd
    by_cases h0 : d = 0
    · simp [powModAux, h0]
    · have hrec := ih (a * a % n) (d / 2) (by omega)
      have h2 : (a * a % n) ^ (d / 2) % n = (a * a) ^ (d / 2) % n := by
        rw [← Nat.pow_mod]
      have h3 : (a * a) ^ (d / 2) = a ^ (2 * (d / 2)) := by
        rw [← pow_two, ← pow_mul]
      rw [powModAux, if_neg h0, hrec, h2]
      simp only [h3]
      by_cases hpar : d % 2 = 1
      · rw [if_pos hpar, Nat.mod_mul_mod, ← pow_succ]
        congr 2
        omega
      · rw [if_neg hpar]
        congr 2
        omega

theorem powMod_eq (a d n : ℕ) : powMod a d n = a ^ d % n := by
  rw [powMod, powModAux_eq n d (a % n) d le_rfl, ← Nat.pow_mod]

/-! ## `is_prime` (src/rsa.py lines 10-35): Miller-Rabin

The decomposition loop `while d % 2 == 0: r += 1; d //= 2` becomes
`split2`; the random witness of each round, `random.randrange(2, n-1)`
(a uniform draw from `[2, n-2]`), is modelled by an oracle value `w`
mapped into that range as `2 + w % (n - 3)`. -/

/-- The `n-1 = 2^r * d` decomposition loop of `is_prime`.  `fuel`
bounds the number of halvings (`d ≤ fuel` suffices); the `d ≠ 0` guard
is unreachable at the call site (there `d = n - 1 ≥ 4`) and only keeps
the embedding total where the Python loop would not terminate. -/
def split2Aux : ℕ → ℕ → ℕ × ℕ
  | 0, d => (0, d)
  | fuel+1, d =>
    if d % 2 = 0 ∧ d ≠ 0 then
      let p := split2Aux fuel (d / 2)
      (p.1 + 1, p.2)
    else (0, d)

def split2 (m : ℕ) : ℕ × ℕ := split2Aux m m

theorem split2Aux_spec : ∀ fuel d, 0 < d → d ≤ fuel →
    2 ^ (split2Aux fuel d).1 * (split2Aux fuel d).2 = d ∧ (split2Aux fuel d).2 % 2 = 1 := by
  intro fuel
  induction fuel with
  | zero => intro d h1 h2; omega
  | succ fuel ih =>
    intro d h1 h2
    by_cases he : d % 2 = 0 ∧ d ≠ 0
    · have hrec := ih (d / 2) (by omega) (by omega)
      rw [split2Aux, if_pos he]
      refine ⟨?_, hrec.2⟩
      have : 2 ^ ((split2Aux fuel (d / 2)).1 + 1) * (split2Aux fuel (d / 2)).2
          = 2 * (2 ^ (split2Aux fuel (d / 2)).1 * (split2Aux fuel (d / 2)).2) := by
        ring
      rw [this, hrec.1]
      omega
    · rw [split2Aux, if_neg he]
      simpa using by omega

theorem split2_spec (m : ℕ) (h : 0 < m) :
    2 ^ (split2 m).1 * (split2 m).2 = m ∧ (split2 m).2 % 2 = 1 :=
  split2Aux_spec m m h le_rfl

/-- The inner squaring loop of a Miller-Rabin round:
`for _ in range(r - 1): x = x*x % n; if x == n - 1: break` followed by
the `else: return False` of the `for`.  Returns `true` exactly when
some squared iterate hits `n - 1` within the allowed steps. -/
def millerInner (n : ℕ) : ℕ → ℕ → Bool
  | 0, _ => false
  | steps+1, x =>
    let x2 := x * x % n
    if x2 = n - 1 then true else millerInner n steps x2

/-- One Miller-Rabin round for witness `a`:
`x = pow(a, d, n); if x in (1, n-1): continue` else the inner loop. -/
def millerRound (n d r a : ℕ) : Bool :=
  let x := powMod a d n
  if x = 1 ∨ x = n - 1 then true else millerInner n (r - 1) x

/-- The witness loop of `is_prime`: `k` rounds, each drawing one oracle
value from the front of `ws` (an exhausted oracle list draws 0). -/
def witnessLoop (n d r : ℕ) : ℕ → List ℕ → Bool
  | 0, _ => true
  | k+1, ws =>
    if millerRound n d r (2 + ws.headI % (n - 3)) then witnessLoop n d r k ws.tail
    else false

/-- `is_prime(n, k=5)` (src/rsa.py lines 10-35) with the `k` random
witness draws supplied by the oracle list `ws`. -/
def is_prime (n k : ℕ) (ws : List ℕ) : Bool :=
  if n = 2 ∨ n = 3 then true
  else if n < 2 ∨ n % 2 = 0 then false
  else witnessLoop n (split2 (n - 1)).2 (split2 (n - 1)).1 k ws

/-! ## `generate_prime` (src/rsa.py lines 37-42)

Each loop iteration consumes one oracle element `(w, ws)`:
`w` models `random.getrandbits(bits)` (reduced `mod 2^bits` as
`getrandbits` guarantees) and `ws` supplies the witness draws of the
`is_prime` call on that candidate.  The candidate is
`n |= (1 << bits - 1) | 1`.  An exhausted draw list returns `none`
(the Python loop would still be running). -/
def generate_prime (bits : ℕ) : List (ℕ × List ℕ) → Option ℕ
  | [] => none
  | (w, ws) :: rest =>
    let c := w % 2 ^ bits ||| (2 ^ (bits - 1) ||| 1)
    if is_prime c 5 ws then some c else generate_prime bits rest

/-! ## `extended_gcd` and `mod_inverse` (src/rsa.py lines 44-54) -/

/-- The recursive extended Euclid of `mod_inverse`.  In the source the
first argument strictly decreases across calls (`b % a < a`), so fuel
`a + 1` at the root is enough; the fuel-exhausted value is unreachable
(see `extended_gcdAux_spec`). -/
def extended_gcdAux : ℕ → ℕ → ℕ → ℕ × ℤ × ℤ
  | 0, a, b => if a = 0 then (b, 0, 1) else (0, 0, 0)
  | fuel+1, a, b =>
    if a = 0 then (b, 0, 1)
    else
      let r := extended_gcdAux fuel (b % a) a
      (r.1, r.2.2 - ((b / a : ℕ) : ℤ) * r.2.1, r.2.1)

/-- `extended_gcd(a, b)`: returns `(g, x, y)` with `a*x + b*y = g = gcd a b`. -/
def extended_gcd (a b : ℕ) : ℕ × ℤ × ℤ := extended_gcdAux (a + 1) a b

/-- `mod_inverse(e, phi) = extended_gcd(e, phi).x % phi`; Python's `%`
with a positive right operand is `Int.emod`. -/
def mod_inverse (e phi : ℕ) : ℤ := (extended_gcd e phi).2.1 % (phi : ℤ)

theorem extended_gcdAux_spec : ∀ fuel a b, a ≤ fuel →
    (extended_gcdAux fuel a b).1 = Nat.gcd a b ∧
    (a : ℤ) * (extended_gcdAux fuel a b).2.1 + (b : ℤ) * (extended_gcdAux fuel a b).2.2
      = Nat.gcd a b := by
  intro fuel
  induction fuel with
  | zero =>
    intro a b ha
    have : a = 0 := by omega
    subst this
    simp [extended_gcdAux]
  | succ fuel ih =>
    intro a b ha
    by_cases h0 : a = 0
    · subst h0; simp [extended_gcdAux]
    · have hlt : b % a < a := Nat.mod_lt b (by omega)
      have hrec := ih (b % a) a (by omega)
      have hg : Nat.gcd (b % a) a = Nat.gcd a b := (Nat.gcd_rec a b).symm
      have hmod : (a : ℤ) * ((b / a : ℕ) : ℤ) + ((b % a : ℕ) : ℤ) = (b : ℤ) := by
        exact_mod_cast congrArg (Nat.cast : ℕ → ℤ) (Nat.div_add_mod b a)
      rw [extended_gcdAux, if_neg h0]
      constructor
      · simpa [hg] using hrec.1
      · have hb := hrec.2
        rw [hg] at hb
        simp only []
        linear_combination hb - (extended_gcdAux fuel (b % a) a).2.1 * hmod

theorem extended_gcd_spec (a b : ℕ) :
    (extended_gcd a b).1 = Nat.gcd a b ∧
    (a : ℤ) * (extended_gcd a b).2.1 + (b : ℤ) * (extended_gcd a b).2.2 = Nat.gcd a b :=
  extended_gcdAux_spec (a + 1) a b (by omega)

/-- What `mod_inverse` actually returns, with no coprimality assumed:
a value in `[0, phi)` with `e * result ≡ gcd e phi (mod phi)`. -/
theorem mod_inverse_key (e phi : ℕ) (hphi : 0 < phi) :
    0 ≤ mod_inverse e phi ∧ mod_inverse e phi < phi ∧
    (e * (mod_inverse e phi).toNat) % phi = Nat.gcd e phi % phi := by
  have hphiZ : (phi : ℤ) ≠ 0 := by exact_mod_cast hphi.ne'
  have hnonneg : 0 ≤ mod_inverse e phi := Int.emod_nonneg _ hphiZ
  have hlt : mod_inverse e phi < phi := Int.emod_lt_of_pos _ (by exact_mod_cast hphi)
  refine ⟨hnonneg, hlt, ?_⟩
  set x := (extended_gcd e phi).2.1 with hx
  set y := (extended_gcd e phi).2.2 with hy
  have hbez : (e : ℤ) * x + (phi : ℤ) * y = Nat.gcd e phi := (extended_gcd_spec e phi).2
  have hmodeq : (e : ℤ) * (mod_inverse e phi) ≡ Nat.gcd e phi [ZMOD (phi : ℤ)] := by
    have h1 : (e : ℤ) * (mod_inverse e phi) ≡ (e : ℤ) * x [ZMOD (phi : ℤ)] := by
      refine Int.ModEq.mul_left _ ?_
      show mod_inverse e phi % (phi : ℤ) = x % (phi : ℤ)
      rw [mod_inverse]
      exact Int.emod_emod_of_dvd x dvd_rfl
    have h2 : (e : ℤ) * x ≡ Nat.gcd e phi [ZMOD (phi : ℤ)] :=
      (Int.modEq_iff_dvd).mpr ⟨y, by linarith⟩
    exact h1.trans h2
  have htoNat : ((mod_inverse e phi).toNat : ℤ) = mod_inverse e phi :=
    Int.toNat_of_nonneg hnonneg
  have : ((e * (mod_inverse e phi).toNat : ℕ) : ℤ) % (phi : ℤ)
      = ((Nat.gcd e phi : ℕ) : ℤ) % (phi : ℤ) := by
    push_cast
    rw [htoNat]
    exact hmodeq
  have := congrArg Int.toNat this
  rwa [← Int.natCast_mod, ← Int.natCast_mod, Int.toNat_natCast, Int.toNat_natCast] at this

/-! ## `generate_keypair` (src/core.py lines 11-32)

Three oracle streams feed the three loops: `pd` the draws of the first
`generate_prime` call, `qd` one draw-bundle per `generate_prime` call
of the `while p == q` distinctness loop, `ed` the
`random.randrange(3, phi, 2)` draws of the exponent fallback loop
(an oracle value `t` maps to the odd number `3 + 2 * (t % ((phi-2)/2))`,
the `t`-th element of `range(3, phi, 2)`). -/

/-- `q = generate_prime(...)` then `while p == q: q = generate_prime(...)`. -/
def drawDistinct (p bits : ℕ) : List (List (ℕ × List ℕ)) → Option ℕ
  | [] => none
  | b :: rest =>
    match generate_prime bits b with
    | none => none
    | some q => if q = p then drawDistinct p bits rest else some q

/-- `e = 65537` then `while gcd(e, phi) != 1: e = randrange(3, phi, 2)`. -/
def chooseELoop (phi e : ℕ) : List ℕ → Option ℕ
  | [] => if Nat.gcd e phi = 1 then some e else none
  | t :: rest =>
    if Nat.gcd e phi = 1 then some e
    else chooseELoop phi (3 + 2 * (t % ((phi - 2) / 2))) rest

def generate_keypair (bits : ℕ) (pd : List (ℕ × List ℕ)) (qd : List (List (ℕ × List ℕ)))
    (ed : List ℕ) : Option (RSAKey × RSAKey) :=
  match generate_prime (bits / 2) pd with
  | none => none
  | some p =>
    match drawDistinct p (bits / 2) qd with
    | none => none
    | some q =>
      let n := p * q
      let phi := (p - 1) * (q - 1)
      match chooseELoop phi 65537 ed with
      | none => none
      | some e =>
        let d := (mod_inverse e phi).toNat
        some (⟨n, e, 0⟩, ⟨n, e, d⟩)

/-! ## Transform engine (src/core.py lines 34-48) -/

/-- `encrypt(message, public_key) = pow(message, public_key.e, public_key.n)`. -/
def encrypt (message : ℕ) (public_key : RSAKey) : ℕ :=
  powMod message public_key.e public_key.n

/-- `decrypt(ciphertext, private_key) = pow(ciphertext, private_key.d, private_key.n)`. -/
def decrypt (ciphertext : ℕ) (private_key : RSAKey) : ℕ :=
  powMod ciphertext private_key.d private_key.n

/-- `sign(message, private_key) = pow(message, private_key.d, private_key.n)`. -/
def sign (message : ℕ) (private_key : RSAKey) : ℕ :=
  powMod message private_key.d private_key.n

/-- `verify_signature(message, signature, public_key)
  = pow(signature, public_key.e, public_key.n) == message`. -/
def verify_signature (message signature : ℕ) (public_key : RSAKey) : Bool :=
  powMod signature public_key.e public_key.n == message

/-! ## Inversion lemmas for the keypair pipeline -/

theorem drawDistinct_ne {p bits : ℕ} :
    ∀ {l q}, drawDistinct p bits l = some q → q ≠ p := by
  intro l
  induction l with
  | nil => intro q h; simp [drawDistinct] at h
  | cons b rest ih =>
    intro q h
    cases hg : generate_prime bits b with
    | none =>
      simp only [drawDistinct, hg] at h
      exact Option.noConfusion h
    | some q' =>
      simp only [drawDistinct, hg] at h
      by_cases he : q' = p
      · rw [if_pos he] at h
        exact ih h
      · rw [if_neg he] at h
        cases h
        exact he

theorem chooseELoop_coprime {phi : ℕ} :
    ∀ {l e e'}, chooseELoop phi e l = some e' → Nat.gcd e' phi = 1 := by
  intro l
  induction l with
  | nil =>
    intro e e' h
    rw [chooseELoop] at h
    by_cases hg : Nat.gcd e phi = 1
    · rw [if_pos hg] at h; cases h; exact hg
    · rw [if_neg hg] at h; cases h
  | cons t rest ih =>
    intro e e' h
    rw [chooseELoop] at h
    by_cases hg : Nat.gcd e phi = 1
    · rw [if_pos hg] at h; cases h; exact hg
    · rw [if_neg hg] at h; exact ih h

/-- Every `some` result of `generate_keypair` has the shape the source
builds: `n = p*q` from the two drawn primes, a public exponent coprime
to `phi`, `d = mod_inverse e phi`, and the sentinel `d = 0` on the
public half. -/
theorem generate_keypair_shape {bits : ℕ} {pd : List (ℕ × List ℕ)}
    {qd : List (List (ℕ × List ℕ))} {ed : List ℕ} {pub priv : RSAKey} {p q : ℕ}
    (hgen : generate_keypair bits pd qd ed = some (pub, priv))
    (hpd : generate_prime (bits / 2) pd = some p)
    (hqd : drawDistinct p (bits / 2) qd = some q) :
    ∃ e, chooseELoop ((p - 1) * (q - 1)) 65537 ed = some e ∧
      pub = ⟨p * q, e, 0⟩ ∧
      priv = ⟨p * q, e, (mod_inverse e ((p - 1) * (q - 1))).toNat⟩ := by
  cases hc : chooseELoop ((p - 1) * (q - 1)) 65537 ed with
  | none =>
    simp only [generate_keypair, hpd, hqd, hc] at hgen
    exact Option.noConfusion hgen
  | some e =>
    simp only [generate_keypair, hpd, hqd, hc, Option.some.injEq, Prod.mk.injEq] at hgen
    exact ⟨e, rfl, hgen.1.symm, hgen.2.symm⟩

/-! ## RSA correctness core -/

theorem totient_two_le {p q : ℕ} (hp : p.Prime) (hq : q.Prime) (hne : p ≠ q) :
    2 ≤ (p - 1) * (q - 1) := by
  have h2p := hp.two_le
  have h2q := hq.two_le
  rcases eq_or_ne p 2 with h | h
  · have : 3 ≤ q := by omega
    calc 2 ≤ (2 - 1) * (q - 1) := by omega
    _ = (p - 1) * (q - 1) := by rw [h]
  · have : 3 ≤ p := by omega
    have h1 : 1 ≤ q - 1 := by omega
    calc 2 = 2 * 1 := rfl
    _ ≤ (p - 1) * (q - 1) := Nat.mul_le_mul (by omega) h1

/-- Fermat: `m ^ (1 + k*(p-1)) ≡ m (mod p)` for `p` prime, all `m`. -/
theorem pow_one_add_mul_modEq (p : ℕ) (hp : p.Prime) (k m : ℕ) :
    m ^ (1 + k * (p - 1)) ≡ m [MOD p] := by
  haveI : Fact p.Prime := ⟨hp⟩
  rw [← ZMod.natCast_eq_natCast_iff]
  push_cast
  by_cases hm : (m : ZMod p) = 0
  · rw [hm, zero_pow (by positivity)]
  · rw [pow_add, pow_one, pow_mul, ZMod.pow_card_sub_one_eq_one (pow_ne_zero k hm),
      mul_one]

/-- The RSA round trip modulo `n = p*q`: if `e*d ≡ 1 (mod (p-1)(q-1))`
then `m^(e*d) ≡ m (mod p*q)` for every `m`, `p ≠ q` prime. -/
theorem rsa_modEq {p q e d : ℕ} (hp : p.Prime) (hq : q.Prime) (hne : p ≠ q)
    (hed : e * d ≡ 1 [MOD (p - 1) * (q - 1)]) (m : ℕ) :
    m ^ (e * d) ≡ m [MOD p * q] := by
  have hphi2 : 2 ≤ (p - 1) * (q - 1) := totient_two_le hp hq hne
  have hed1 : 1 ≤ e * d := by
    by_contra h
    have h0 : e * d = 0 := by omega
    have := hed
    rw [h0] at this
    have : 0 % ((p - 1) * (q - 1)) = 1 % ((p - 1) * (q - 1)) := this
    rw [Nat.zero_mod, Nat.mod_eq_of_lt (by omega)] at this
    omega
  obtain ⟨k, hk⟩ := (Nat.modEq_iff_dvd' hed1).mp hed.symm
  have hkeq : e * d = 1 + ((p - 1) * (q - 1)) * k := by omega
  have hmp : m ^ (e * d) ≡ m [MOD p] := by
    have : e * d = 1 + ((q - 1) * k) * (p - 1) := by rw [hkeq]; ring
    rw [this]
    exact pow_one_add_mul_modEq p hp ((q - 1) * k) m
  have hmq : m ^ (e * d) ≡ m [MOD q] := by
    have : e * d = 1 + ((p - 1) * k) * (q - 1) := by rw [hkeq]; ring
    rw [this]
    exact pow_one_add_mul_modEq q hq ((p - 1) * k) m
  exact (Nat.modEq_and_modEq_iff_modEq_mul ((Nat.coprime_primes hp hq).mpr hne)).mp
    ⟨hmp, hmq⟩

/-- For coprime `e`, `phi ≥ 2`, the private exponent the code computes
satisfies `e * d ≡ 1 (mod phi)`. -/
theorem mod_inverse_modEq {e phi : ℕ} (hphi : 2 ≤ phi) (hgcd : Nat.gcd e phi = 1) :
    e * (mod_inverse e phi).toNat ≡ 1 [MOD phi] := by
  have hk := mod_inverse_key e phi (by omega)
  show (e * (mod_inverse e phi).toNat) % phi = 1 % phi
  rw [hk.2.2, hgcd]

/-- Claim C1: for every keypair `(public, private)` returned by
`generate_keypair` (stated for every `bits`, hence in particular for
`bits ≥ 512`) whose two drawn prime-generator outputs `p ≠ q` are
prime, and every message `m` in `[0, n)`,
`decrypt(encrypt(m, public), private) = m`, where encrypt/decrypt are
modular exponentiation by `e` resp. `d`. -/
theorem decrypt_encrypt_eq (bits : ℕ) (pd : List (ℕ × List ℕ))
    (qd : List (List (ℕ × List ℕ))) (ed : List ℕ) (pub priv : RSAKey) (p q : ℕ)
    (hgen : generate_keypair bits pd qd ed = some (pub, priv))
    (hpd : generate_prime (bits / 2) pd = some p)
    (hqd : drawDistinct p (bits / 2) qd = some q)
    (hp : Nat.Prime p) (hq : Nat.Prime q)
    (m : ℕ) (hm : m < pub.n) :
    decrypt (encrypt m pub) priv = m := by
  obtain ⟨e, hce, hpub, hpriv⟩ := generate_keypair_shape hgen hpd hqd
  subst hpub hpriv
  have hne : p ≠ q := (drawDistinct_ne hqd).symm
  have hgcd := chooseELoop_coprime hce
  have hphi2 := totient_two_le hp hq hne
  have hed := mod_inverse_modEq hphi2 hgcd
  have hrsa := rsa_modEq hp hq hne hed m
  calc decrypt (encrypt m ⟨p * q, e, 0⟩)
        ⟨p * q, e, (mod_inverse e ((p - 1) * (q - 1))).toNat⟩
      = (m ^ e % (p * q)) ^ (mod_inverse e ((p - 1) * (q - 1))).toNat % (p * q) := by
        simp [encrypt, decrypt, powMod_eq]
    _ = (m ^ e) ^ (mod_inverse e ((p - 1) * (q - 1))).toNat % (p * q) := by
        rw [← Nat.pow_mod]
    _ = m ^ (e * (mod_inverse e ((p - 1) * (q - 1))).toNat) % (p * q) := by
        rw [← pow_mul]
    _ = m % (p * q) := hrsa
    _ = m := Nat.mod_eq_of_lt hm

/-- Witness for C1: a complete concrete run of `generate_keypair` with
oracle draws giving `p = 5`, `q = 7`, `e = 65537`, `d = 17`, on the
message `m = 2`. -/
theorem decrypt_encrypt_eq_witness :
    decrypt (encrypt 2 (RSAKey.mk 35 65537 0)) (RSAKey.mk 35 65537 17) = 2 :=
  decrypt_encrypt_eq 6 [(5, [0, 0, 0, 0, 0])] [[(7, [0, 0, 0, 0, 0])]] []
    (RSAKey.mk 35 65537 0) (RSAKey.mk 35 65537 17) 5 7
    (by decide) (by decide) (by decide) (by norm_num) (by norm_num) 2 (by decide)

/-- Claim C2: for every keypair returned by `generate_keypair` whose
drawn prime-generator outputs `p ≠ q` are prime: for `m` in `[0, n)`,
`verify_signature(m, sign(m, private), public)` is true, and whenever
`m ≢ m' (mod n)`, `verify_signature(m, sign(m', private), public)` is
false. -/
theorem verify_sign_spec (bits : ℕ) (pd : List (ℕ × List ℕ))
    (qd : List (List (ℕ × List ℕ))) (ed : List ℕ) (pub priv : RSAKey) (p q : ℕ)
    (hgen : generate_keypair bits pd qd ed = some (pub, priv))
    (hpd : generate_prime (bits / 2) pd = some p)
    (hqd : drawDistinct p (bits / 2) qd = some q)
    (hp : Nat.Prime p) (hq : Nat.Prime q)
    (m m' : ℕ) :
    (m < pub.n → verify_signature m (sign m priv) pub = true) ∧
    (¬ Nat.ModEq pub.n m m' → verify_signature m (sign m' priv) pub = false) := by
  obtain ⟨e, hce, hpub, hpriv⟩ := generate_keypair_shape hgen hpd hqd
  subst hpub hpriv
  have hne : p ≠ q := (drawDistinct_ne hqd).symm
  have hgcd := chooseELoop_coprime hce
  have hphi2 := totient_two_le hp hq hne
  have hed := mod_inverse_modEq hphi2 hgcd
  have hval : ∀ w : ℕ,
      powMod (sign w ⟨p * q, e, (mod_inverse e ((p - 1) * (q - 1))).toNat⟩) e (p * q)
        = w % (p * q) := by
    intro w
    have hrsa := rsa_modEq hp hq hne hed w
    calc powMod (sign w ⟨p * q, e, (mod_inverse e ((p - 1) * (q - 1))).toNat⟩) e (p * q)
        = (w ^ (mod_inverse e ((p - 1) * (q - 1))).toNat % (p * q)) ^ e % (p * q) := by
          simp [sign, powMod_eq]
      _ = (w ^ (mod_inverse e ((p - 1) * (q - 1))).toNat) ^ e % (p * q) := by
          rw [← Nat.pow_mod]
      _ = w ^ (e * (mod_inverse e ((p - 1) * (q - 1))).toNat) % (p * q) := by
          rw [← pow_mul, mul_comm e]
      _ = w % (p * q) := hrsa
  constructor
  · intro hm
    have : powMod (sign m ⟨p * q, e, (mod_inverse e ((p - 1) * (q - 1))).toNat⟩) e (p * q)
        = m := by rw [hval m]; exact Nat.mod_eq_of_lt hm
    simp [verify_signature, this]
  · intro hmod
    have hne' : m' % (p * q) ≠ m := by
      intro hcontra
      apply hmod
      show m % (p * q) = m' % (p * q)
      rw [← hcontra, Nat.mod_mod_of_dvd _ dvd_rfl]
    simp only [verify_signature, hval m', beq_eq_false_iff_ne, ne_eq]
    exact hne'

/-- Witness for C2: the concrete 6-bit keypair, `m = 2`, `m' = 3`. -/
theorem verify_sign_spec_witness :
    verify_signature 2 (sign 2 (RSAKey.mk 35 65537 17)) (RSAKey.mk 35 65537 0) = true ∧
    verify_signature 2 (sign 3 (RSAKey.mk 35 65537 17)) (RSAKey.mk 35 65537 0) = false := by
  have h := verify_sign_spec 6 [(5, [0, 0, 0, 0, 0])] [[(7, [0, 0, 0, 0, 0])]] []
    (RSAKey.mk 35 65537 0) (RSAKey.mk 35 65537 17) 5 7
    (by decide) (by decide) (by decide) (by norm_num) (by norm_num) 2 3
  refine ⟨h.1 (by decide), h.2 ?_⟩
  show ¬ (2 % 35 = 3 % 35)
  decide

/-- Claim C4: every keypair returned by `generate_keypair` (with prime
drawn `p`, `q`) has the sentinel `0` as the public key's third
component, modulus `n = p * q` with `p ≠ q`, the same `n` and `e` on
both halves, and `(e * d) % phi = 1` for `phi = (p-1)*(q-1)`. -/
theorem generate_keypair_invariants (bits : ℕ) (pd : List (ℕ × List ℕ))
    (qd : List (List (ℕ × List ℕ))) (ed : List ℕ) (pub priv : RSAKey) (p q : ℕ)
    (hgen : generate_keypair bits pd qd ed = some (pub, priv))
    (hpd : generate_prime (bits / 2) pd = some p)
    (hqd : drawDistinct p (bits / 2) qd = some q)
    (hp : Nat.Prime p) (hq : Nat.Prime q) :
    pub.d = 0 ∧ pub.n = p * q ∧ priv.n = p * q ∧ pub.e = priv.e ∧ p ≠ q ∧
    (priv.e * priv.d) % ((p - 1) * (q - 1)) = 1 := by
  obtain ⟨e, hce, hpub, hpriv⟩ := generate_keypair_shape hgen hpd hqd
  subst hpub hpriv
  have hne : p ≠ q := (drawDistinct_ne hqd).symm
  have hgcd := chooseELoop_coprime hce
  have hphi2 := totient_two_le hp hq hne
  have hed := mod_inverse_modEq hphi2 hgcd
  refine ⟨rfl, rfl, rfl, rfl, hne, ?_⟩
  have h := hed
  have h1 : 1 % ((p - 1) * (q - 1)) = 1 := Nat.mod_eq_of_lt (by omega)
  show (e * (mod_inverse e ((p - 1) * (q - 1))).toNat) % ((p - 1) * (q - 1)) = 1
  rw [Nat.ModEq] at h
  rw [h, h1]

/-- Witness for C4: the invariants at the concrete 6-bit run. -/
theorem generate_keypair_invariants_witness :
    (RSAKey.mk 35 65537 0).d = 0 ∧ (RSAKey.mk 35 65537 0).n = 5 * 7 ∧
    (RSAKey.mk 35 65537 17).n = 5 * 7 ∧
    (RSAKey.mk 35 65537 0).e = (RSAKey.mk 35 65537 17).e ∧ (5 : ℕ) ≠ 7 ∧
    ((RSAKey.mk 35 65537 17).e * (RSAKey.mk 35 65537 17).d) % ((5 - 1) * (7 - 1)) = 1 :=
  generate_keypair_invariants 6 [(5, [0, 0, 0, 0, 0])] [[(7, [0, 0, 0, 0, 0])]] []
    (RSAKey.mk 35 65537 0) (RSAKey.mk 35 65537 17) 5 7
    (by decide) (by decide) (by decide) (by norm_num) (by norm_num)

/-- Claim C10: `decrypt` with a key whose `d` is the public-key
sentinel `0` and whose modulus exceeds 1 returns the constant 1
(`pow(c, 0, n) = 1`), for every ciphertext — no error is raised. -/
theorem decrypt_sentinel_eq_one (c : ℕ) (k : RSAKey) (hd : k.d = 0) (hn : 1 < k.n) :
    decrypt c k = 1 := by
  rw [decrypt, hd, powMod_eq, pow_zero]
  exact Nat.mod_eq_of_lt hn

/-- Witness for C10: decrypting `7` with the public-style key `(5, 3, 0)`. -/
theorem decrypt_sentinel_eq_one_witness : decrypt 7 (RSAKey.mk 5 3 0) = 1 :=
  decrypt_sentinel_eq_one 7 (RSAKey.mk 5 3 0) rfl (by decide)

/-- Counterexample to claim C3 as stated: at `e = 1`, `phi = 1` (a
coprime pair with `phi > 0`), `mod_inverse` returns `0`, and
`(1 * 0) % 1 = 0 ≠ 1`, so the congruence `(e * result) % phi = 1`
fails for `phi = 1`. -/
theorem mod_inverse_phi_one_fails :
    Nat.gcd 1 1 = 1 ∧ 0 < 1 ∧ mod_inverse 1 1 = 0 ∧
    ¬ ((1 * (mod_inverse 1 1).toNat) % 1 = 1) := by decide

/-- Claim C3 (amended: `phi > 1` in place of `phi > 0`, as the
counterexample `phi = 1` forces): for coprime `(e, phi)` with
`phi > 1` — including `e = 1` — `mod_inverse e phi` lies in `[0, phi)`
and satisfies `(e * mod_inverse(e, phi)) % phi = 1`. -/
theorem mod_inverse_correct (e phi : ℕ) (hphi : 1 < phi) (hgcd : Nat.gcd e phi = 1) :
    0 ≤ mod_inverse e phi ∧ mod_inverse e phi < phi ∧
    (e * (mod_inverse e phi).toNat) % phi = 1 := by
  have hk := mod_inverse_key e phi (by omega)
  refine ⟨hk.1, hk.2.1, ?_⟩
  rw [hk.2.2, hgcd]
  exact Nat.mod_eq_of_lt hphi

/-- Witness for C3: `e = 1`, `phi = 4` (the spec's emphasised `e = 1`
case): `mod_inverse 1 4 = 1` and `(1 * 1) % 4 = 1`. -/
theorem mod_inverse_correct_witness :
    0 ≤ mod_inverse 1 4 ∧ mod_inverse 1 4 < 4 ∧ (1 * (mod_inverse 1 4).toNat) % 4 = 1 :=
  mod_inverse_correct 1 4 (by decide) (by decide)

/-- Counterexample to claim C5: at the non-coprime pair `(2, 4)`,
`mod_inverse` raises nothing and returns the value `1` (the embedding
is a total function; the source has no error path at all). -/
theorem mod_inverse_noncoprime_returns :
    Nat.gcd 2 4 ≠ 1 ∧ mod_inverse 2 4 = 1 := by decide

/-- Claim C5 (amended: the code does not fail on non-coprime input —
it silently returns a value; what holds is that for `gcd(e,phi) ≠ 1`,
`phi > 0`, the returned value lies in `[0, phi)` and is not an
inverse: `(e * result) % phi = gcd(e,phi) % phi ≠ 1`). -/
theorem mod_inverse_noncoprime_spec (e phi : ℕ) (hphi : 0 < phi)
    (hgcd : Nat.gcd e phi ≠ 1) :
    0 ≤ mod_inverse e phi ∧ mod_inverse e phi < phi ∧
    (e * (mod_inverse e phi).toNat) % phi ≠ 1 := by
  have hk := mod_inverse_key e phi hphi
  refine ⟨hk.1, hk.2.1, ?_⟩
  rw [hk.2.2]
  have hg1 : 1 ≤ Nat.gcd e phi := Nat.pos_of_ne_zero (by
    intro h0
    rw [Nat.gcd_eq_zero_iff] at h0
    omega)
  have hdvd : Nat.gcd e phi ∣ phi := Nat.gcd_dvd_right e phi
  have hphi1 : phi ≠ 1 := by
    intro h1
    apply hgcd
    rw [h1]
    exact Nat.gcd_one_right e
  rcases eq_or_lt_of_le (Nat.le_of_dvd hphi hdvd) with heq | hlt
  · rw [heq, Nat.mod_self]
    omega
  · rw [Nat.mod_eq_of_lt hlt]
    exact hgcd

/-- Witness for C5 (amended): at `(2, 4)` the returned `1` satisfies
`(2 * 1) % 4 = 2 ≠ 1`. -/
theorem mod_inverse_noncoprime_spec_witness :
    0 ≤ mod_inverse 2 4 ∧ mod_inverse 2 4 < 4 ∧ (2 * (mod_inverse 2 4).toNat) % 4 ≠ 1 :=
  mod_inverse_noncoprime_spec 2 4 (by decide) (by decide)

/-! ## Claim C6: `generate_prime` output shape -/

theorem lor_lt_two_pow {x y n : ℕ} (hx : x < 2 ^ n) (hy : y < 2 ^ n) : x ||| y < 2 ^ n :=
  Nat.bitwise_lt hx hy

theorem lor_lower_le {a b : ℕ} (i : ℕ) (hb : Nat.testBit b i = true) : 2 ^ i ≤ a ||| b := by
  by_contra h
  have hlt : a ||| b < 2 ^ i := by omega
  have := Nat.testBit_lor a b i
  rw [Nat.testBit_lt_two_pow hlt] at this
  rw [hb] at this
  simp at this

/-- Claim C6: for every `bits ≥ 2` and every behavior of the random
source (candidate draws and witness draws), if `generate_prime bits`
returns a value `v`, then `v` is odd, `2^(bits-1) ≤ v < 2^bits` (top
and bottom bits forced set), i.e. `v` has exactly `bits` bit length. -/
theorem generate_prime_bits_spec (bits : ℕ) (draws : List (ℕ × List ℕ)) (v : ℕ)
    (hbits : 2 ≤ bits) (h : generate_prime bits draws = some v) :
    v % 2 = 1 ∧ 2 ^ (bits - 1) ≤ v ∧ v < 2 ^ bits ∧ Nat.size v = bits := by
  induction draws with
  | nil => simp [generate_prime] at h
  | cons wws rest ih =>
    obtain ⟨w, ws⟩ := wws
    cases hip : is_prime (w % 2 ^ bits ||| (2 ^ (bits - 1) ||| 1)) 5 ws with
    | true =>
      simp only [generate_prime, hip, if_true, Option.some.injEq] at h
      subst h
      set c := w % 2 ^ bits ||| (2 ^ (bits - 1) ||| 1) with hc
      have hlow : Nat.testBit (2 ^ (bits - 1) ||| 1) 0 = true := by
        rw [Nat.testBit_lor]
        simp [Nat.testBit_zero]
      have hhigh : Nat.testBit (2 ^ (bits - 1) ||| 1) (bits - 1) = true := by
        rw [Nat.testBit_lor, Nat.testBit_two_pow_self]
        simp
      have hodd : c % 2 = 1 := by
        have h0 : Nat.testBit c 0 = true := by
          rw [hc, Nat.testBit_lor, hlow]
          simp
        rw [Nat.testBit_zero] at h0
        simpa using h0
      have hge : 2 ^ (bits - 1) ≤ c := lor_lower_le (bits - 1) hhigh
      have hlt : c < 2 ^ bits := by
        have h1 : w % 2 ^ bits < 2 ^ bits := Nat.mod_lt w (Nat.pos_pow_of_pos bits (by omega))
        have h2 : 2 ^ (bits - 1) ||| 1 < 2 ^ bits := by
          have ha : 2 ^ (bits - 1) < 2 ^ bits := Nat.pow_lt_pow_right (by omega) (by omega)
          have hb : (1 : ℕ) < 2 ^ bits := by
            calc (1 : ℕ) < 2 ^ 1 := by omega
            _ ≤ 2 ^ bits := Nat.pow_le_pow_right (by omega) (by omega)
          exact lor_lt_two_pow ha hb
        exact lor_lt_two_pow h1 h2
      refine ⟨hodd, hge, hlt, ?_⟩
      have hs1 : Nat.size c ≤ bits := Nat.size_le.mpr hlt
      have hs2 : bits - 1 < Nat.size c := Nat.lt_size.mpr hge
      omega
    | false =>
      simp only [generate_prime, hip, Bool.false_eq_true, if_false] at h
      exact ih h

/-- Witness for C6: `bits = 2`, one draw `w = 3` (candidate
`3 % 4 ||| (2 ||| 1) = 3`, accepted), giving `v = 3`. -/
theorem generate_prime_bits_spec_witness :
    (3 : ℕ) % 2 = 1 ∧ 2 ^ (2 - 1) ≤ 3 ∧ (3 : ℕ) < 2 ^ 2 ∧ Nat.size 3 = 2 :=
  generate_prime_bits_spec 2 [(3, [])] 3 (by decide) (by decide)

/-! ## Claim C9: no `bits` validation in `generate_keypair` -/

/-- Counterexample to claim C9: at the degenerate size `bits = 6 < 8`,
`generate_keypair` raises nothing — it runs the prime and exponent
loops and happily returns a 6-bit keypair. -/
theorem generate_keypair_bits6_returns :
    generate_keypair 6 [(5, [0, 0, 0, 0, 0])] [[(7, [0, 0, 0, 0, 0])]] []
      = some (RSAKey.mk 35 65537 0, RSAKey.mk 35 65537 17) ∧ (6 : ℕ) < 8 := by
  refine ⟨by decide, by decide⟩

theorem generate_prime_one_none : ∀ draws, generate_prime 1 draws = none := by
  intro draws
  induction draws with
  | nil => rfl
  | cons wws rest ih =>
    obtain ⟨w, ws⟩ := wws
    have hc : w % 2 ^ 1 ||| (2 ^ (1 - 1) ||| 1) = 1 := by
      rcases Nat.mod_two_eq_zero_or_one w with h | h <;>
        · show w % 2 ||| (2 ^ 0 ||| 1) = 1
          rw [h]
          rfl
    rw [generate_prime, hc]
    simpa [is_prime] using ih

/-- Claim C9 (amended: `generate_keypair` performs no validation of
`bits` and has no error path; for a degenerate request it simply runs
the loops — e.g. `bits = 6` returns a tiny keypair (see the
counterexample) and `bits = 2` never returns at all, because every
candidate of `generate_prime(1)` is `1`, which `is_prime` rejects:
here, `none` for every oracle, i.e. the Python loop runs forever). -/
theorem generate_keypair_bits2_no_error :
    ∀ pd qd ed, generate_keypair 2 pd qd ed = none := by
  intro pd qd ed
  rw [generate_keypair]
  have h : (2 : ℕ) / 2 = 1 := rfl
  rw [h, generate_prime_one_none]

/-! ## Claim C8: behavior of `is_prime`

Miller-Rabin never rejects a prime — for any witness whatsoever —
proved below via Fermat's little theorem and the fact that `±1` are
the only square roots of `1` in the field `ZMod n`.  It can, however,
accept a composite under an unlucky witness draw (see the
counterexample at the strong pseudoprime 2047). -/

theorem millerInner_true_of_exists (n : ℕ) :
    ∀ steps x m, 1 ≤ m → m ≤ steps → x ^ 2 ^ m % n = n - 1 →
    millerInner n steps x = true := by
  intro steps
  induction steps with
  | zero => intro x m h1 h2 _; omega
  | succ steps ih =>
    intro x m h1 h2 hx
    rw [millerInner]
    by_cases hhit : x * x % n = n - 1
    · rw [if_pos hhit]
    · rw [if_neg hhit]
      have hm2 : 2 ≤ m := by
        rcases Nat.lt_or_ge m 2 with h | h
        · exfalso
          have hm1 : m = 1 := by omega
          rw [hm1] at hx
          apply hhit
          calc x * x % n = x ^ 2 % n := by rw [pow_two]
            _ = x ^ 2 ^ 1 % n := by norm_num
            _ = n - 1 := hx
        · exact h
      refine ih (x * x % n) (m - 1) (by omega) (by omega) ?_
      calc (x * x % n) ^ 2 ^ (m - 1) % n
          = (x * x) ^ 2 ^ (m - 1) % n := by rw [← Nat.pow_mod]
        _ = (x ^ 2) ^ 2 ^ (m - 1) % n := by rw [pow_two]
        _ = x ^ (2 * 2 ^ (m - 1)) % n := by rw [← pow_mul]
        _ = x ^ 2 ^ m % n := by
            congr 2
            rw [mul_comm, ← pow_succ]
            congr 1
            omega
        _ = n - 1 := hx

theorem millerRound_prime {n : ℕ} (hp : n.Prime) (h5 : 5 ≤ n) (hodd : n % 2 = 1)
    (a : ℕ) (ha2 : 2 ≤ a) (han : a ≤ n - 2) :
    millerRound n (split2 (n - 1)).2 (split2 (n - 1)).1 a = true := by
  obtain ⟨hsplit, hd⟩ := split2_spec (n - 1) (by omega)
  set r := (split2 (n - 1)).1 with hr
  set d := (split2 (n - 1)).2 with hdd
  have hr1 : 1 ≤ r := by
    by_contra h
    have : r = 0 := by omega
    rw [this, pow_zero, one_mul] at hsplit
    omega
  haveI : Fact n.Prime := ⟨hp⟩
  haveI : NeZero n := ⟨by omega⟩
  haveI : Fact (1 < n) := ⟨by omega⟩
  set α : ZMod n := (a : ZMod n) with hα
  have hα0 : α ≠ 0 := by
    intro h0
    have := (ZMod.natCast_zmod_eq_zero_iff_dvd a n).mp h0
    have := Nat.le_of_dvd (by omega) this
    omega
  have hvpow : ∀ k : ℕ, a ^ k % n = (α ^ k).val := by
    intro k
    rw [hα, ← Nat.cast_pow, ZMod.val_natCast]
  have hαpow : α ^ (2 ^ r * d) = 1 := by
    rw [hsplit]
    exact ZMod.pow_card_sub_one_eq_one hα0
  have hex : ∃ j, α ^ (2 ^ j * d) = 1 := ⟨r, hαpow⟩
  set j := Nat.find hex with hj
  have hPj : α ^ (2 ^ j * d) = 1 := Nat.find_spec hex
  have hjr : j ≤ r := Nat.find_min' hex hαpow
  rcases Nat.eq_zero_or_pos j with hj0 | hjpos
  · have hx1 : powMod a d n = 1 := by
      rw [hj0, pow_zero, one_mul] at hPj
      rw [powMod_eq, hvpow, hPj, ZMod.val_one]
    rw [millerRound, if_pos (Or.inl hx1)]
  · set j' := j - 1 with hj'
    have hjj : j = j' + 1 := by omega
    set β := α ^ (2 ^ j' * d) with hβ
    have hββ : β * β = α ^ (2 ^ (j' + 1) * d) := by
      have hexp : 2 ^ (j' + 1) * d = 2 ^ j' * d + 2 ^ j' * d := by
        rw [pow_succ]
        ring
      rw [hβ, hexp, pow_add]
    have hβ1 : β ≠ 1 := Nat.find_min hex (by omega)
    have hβsq : β * β = 1 := by rw [hββ, ← hjj]; exact hPj
    have hβneg : β = -1 := (mul_self_eq_one_iff.mp hβsq).resolve_left hβ1
    have hvalneg : (-1 : ZMod n).val = n - 1 := by
      have hcast : ((n - 1 : ℕ) : ZMod n) = -1 := by
        rw [Nat.cast_sub (by omega), ZMod.natCast_self]
        push_cast
        ring
      rw [← hcast, ZMod.val_natCast, Nat.mod_eq_of_lt (by omega)]
    have hxval : a ^ (2 ^ j' * d) % n = n - 1 := by
      rw [hvpow, ← hβ, hβneg, hvalneg]
    rcases Nat.eq_zero_or_pos j' with hj'0 | hj'pos
    · have : powMod a d n = n - 1 := by
        rw [powMod_eq]
        rw [hj'0, pow_zero, one_mul] at hxval
        exact hxval
      rw [millerRound, if_pos (Or.inr this)]
    · rw [millerRound]
      by_cases hx : powMod a d n = 1 ∨ powMod a d n = n - 1
      · rw [if_pos hx]
      · rw [if_neg hx]
        refine millerInner_true_of_exists n (r - 1) (powMod a d n) j' hj'pos (by omega) ?_
        calc powMod a d n ^ 2 ^ j' % n
            = (a ^ d % n) ^ 2 ^ j' % n := by rw [powMod_eq]
          _ = (a ^ d) ^ 2 ^ j' % n := by rw [← Nat.pow_mod]
          _ = a ^ (2 ^ j' * d) % n := by rw [← pow_mul, mul_comm d]
          _ = n - 1 := hxval

theorem witnessLoop_prime {n : ℕ} (hp : n.Prime) (h5 : 5 ≤ n) (hodd : n % 2 = 1) :
    ∀ k ws, witnessLoop n (split2 (n - 1)).2 (split2 (n - 1)).1 k ws = true := by
  intro k
  induction k with
  | zero => intro ws; rfl
  | succ k ih =>
    intro ws
    have ha2 : 2 ≤ 2 + ws.headI % (n - 3) := by omega
    have han : 2 + ws.headI % (n - 3) ≤ n - 2 := by
      have : ws.headI % (n - 3) < n - 3 := Nat.mod_lt _ (by omega)
      omega
    rw [witnessLoop, if_pos (millerRound_prime hp h5 hodd _ ha2 han)]
    exact ih ws.tail

/-- Claim C8 (amended: the deterministic clauses hold, and `is_prime`
accepts every prime under every witness behavior; but the converse —
rejection of every composite below 10,000 for every witness behavior —
fails, see the counterexample): for every `n`, every round count `k`
and every witness oracle `ws`: `n < 2` gives `false`; `n ∈ {2,3}`
gives `true`; even `n > 2` gives `false`; prime `n` gives `true`. -/
theorem is_prime_behavior (n k : ℕ) (ws : List ℕ) :
    (n < 2 → is_prime n k ws = false) ∧
    ((n = 2 ∨ n = 3) → is_prime n k ws = true) ∧
    (2 < n → n % 2 = 0 → is_prime n k ws = false) ∧
    (Nat.Prime n → is_prime n k ws = true) := by
  refine ⟨?_, ?_, ?_, ?_⟩
  · intro h2
    rw [is_prime, if_neg (by omega), if_pos (Or.inl (by omega))]
  · intro h23
    rw [is_prime, if_pos h23]
  · intro h2 heven
    rw [is_prime, if_neg (by omega), if_pos (Or.inr heven)]
  · intro hp
    by_cases h23 : n = 2 ∨ n = 3
    · rw [is_prime, if_pos h23]
    · have h2 := hp.two_le
      have h4 : n ≠ 4 := by
        intro h
        rw [h] at hp
        norm_num at hp
      have h5 : 5 ≤ n := by omega
      have hodd : n % 2 = 1 := Nat.odd_iff.mp (hp.odd_of_ne_two (by omega))
      rw [is_prime, if_neg h23, if_neg (by omega)]
      exact witnessLoop_prime hp h5 hodd k ws

/-- Counterexample to claim C8 as stated: 2047 = 23 * 89 is composite
and below 10,000, yet under the witness behavior that draws base 2 in
all five rounds (oracle `[0,0,0,0,0]`), `is_prime` returns `true` —
2047 is a strong pseudoprime to base 2, so the claim does not hold for
every behavior of the random witness source. -/
theorem is_prime_accepts_2047 :
    is_prime 2047 5 [0, 0, 0, 0, 0] = true ∧ ¬ Nat.Prime 2047 ∧ 2047 < 10000 :=
  ⟨by decide, by norm_num, by norm_num⟩

/-- Witness for C8 (amended): the concrete prime 13 with an arbitrary
concrete oracle. -/
theorem is_prime_behavior_witness : is_prime 13 5 [0, 1, 2, 3, 4] = true :=
  (is_prime_behavior 13 5 [0, 1, 2, 3, 4]).2.2.2 (by norm_num)

/-! ## Key codec (src/utils.py lines 13-27)

Python strings are embedded as `List Char`, byte strings as `List ℕ`
(each element a byte).  `str.encode()` / `bytes.decode()` on the ASCII
text involved here are `Char.toNat` / `Char.ofNat` pointwise.
`base64.b64encode`/`b64decode` (stdlib externals) are modelled by the
standard base64 alphabet tables below; `b64Decode` is total (it drops
trailing garbage rather than raising, an error path the round-trip
claims never reach).  `int(s)` is modelled on strings of decimal
digits, the only form this codec produces. -/

/-- Little-endian decimal digits of `n` (empty for 0), fuel-structured. -/
def natDigitsAux : ℕ → ℕ → List ℕ
  | 0, _ => []
  | fuel+1, n => if n = 0 then [] else n % 10 :: natDigitsAux fuel (n / 10)

/-- Python `str(n)` for a non-negative integer, as characters. -/
def renderNat (n : ℕ) : List Char :=
  if n = 0 then ['0'] else (natDigitsAux n n).reverse.map (fun d => Char.ofNat (48 + d))

/-- Value of a little-endian decimal digit list. -/
def parseDigits : List ℕ → ℕ
  | [] => 0
  | d :: rest => d + 10 * parseDigits rest

/-- Python `int(s)` on a string of decimal digits. -/
def parseNat (s : List Char) : ℕ :=
  parseDigits ((s.map (fun c => c.toNat - 48)).reverse)

/-- The base64 alphabet: index `i < 64` to character. -/
def b64Char (i : ℕ) : Char :=
  if i < 26 then Char.ofNat (65 + i)
  else if i < 52 then Char.ofNat (97 + (i - 26))
  else if i < 62 then Char.ofNat (48 + (i - 52))
  else if i = 62 then '+' else '/'

/-- The base64 alphabet: character to index. -/
def b64Val (c : Char) : ℕ :=
  if 65 ≤ c.toNat ∧ c.toNat ≤ 90 then c.toNat - 65
  else if 97 ≤ c.toNat ∧ c.toNat ≤ 122 then c.toNat - 97 + 26
  else if 48 ≤ c.toNat ∧ c.toNat ≤ 57 then c.toNat - 48 + 52
  else if c = '+' then 62
  else if c = '/' then 63
  else 0

/-- `base64.b64encode` on a byte list (then decoded to text): 3 bytes
to 4 characters, `=`-padded. -/
def b64Encode : List ℕ → List Char
  | a :: b :: c :: rest =>
    let w := a * 65536 + b * 256 + c
    b64Char (w / 262144) :: b64Char (w / 4096 % 64) :: b64Char (w / 64 % 64) ::
      b64Char (w % 64) :: b64Encode rest
  | [a, b] =>
    let w := a * 65536 + b * 256
    [b64Char (w / 262144), b64Char (w / 4096 % 64), b64Char (w / 64 % 64), '=']
  | [a] =>
    let w := a * 65536
    [b64Char (w / 262144), b64Char (w / 4096 % 64), '=', '=']
  | [] => []

/-- `base64.b64decode` back to a byte list. -/
def b64Decode : List Char → List ℕ
  | c1 :: c2 :: c3 :: c4 :: rest =>
    if c3 = '=' then [b64Val c1 * 4 + b64Val c2 / 16]
    else if c4 = '=' then
      let w := b64Val c1 * 262144 + b64Val c2 * 4096 + b64Val c3 * 64
      [w / 65536, w / 256 % 256]
    else
      let w := b64Val c1 * 262144 + b64Val c2 * 4096 + b64Val c3 * 64 + b64Val c4
      w / 65536 :: w / 256 % 256 :: w % 256 :: b64Decode rest
  | _ => []

/-- Python `s.split(sep)` for a one-character separator: splits at
every occurrence, keeping empty parts; the result is never empty. -/
def splitOnChar (sep : Char) : List Char → List (List Char)
  | [] => [[]]
  | c :: rest =>
    let r := splitOnChar sep rest
    if c = sep then [] :: r
    else
      match r with
      | [] => [[c]]
      | h :: t => (c :: h) :: t

/-- Python `s.strip()`: whitespace removed from both ends. -/
def pyStrip (s : List Char) : List Char :=
  ((s.dropWhile Char.isWhitespace).reverse.dropWhile Char.isWhitespace).reverse

/-- `save_key_to_pem(key, is_private)` (src/utils.py lines 13-19):
note the payload writes `key.d if is_private else 0`. -/
def save_key_to_pem (key : RSAKey) (h_private : Bool) : List Char :=
  let key_type : List Char :=
    if h_private then "RSA PRIVATE KEY".toList else "RSA PUBLIC KEY".toList
  let key_data : List Char :=
    renderNat key.n ++ [','] ++ renderNat key.e ++ [','] ++
      renderNat (if h_private then key.d else 0)
  let encoded := b64Encode (key_data.map Char.toNat)
  "-----BEGIN ".toList ++ key_type ++ "-----".toList ++ '\n' ::
    (encoded ++ '\n' :: ("-----END ".toList ++ key_type ++ "-----".toList))

/-- Decimal-digit check backing the model of Python `int(s)`, which
raises on anything else that appears on an error path here. -/
def allDigits (s : List Char) : Prop :=
  s ≠ [] ∧ ∀ c ∈ s, 48 ≤ c.toNat ∧ c.toNat ≤ 57

instance (s : List Char) : Decidable (allDigits s) := by
  unfold allDigits
  infer_instance

/-- `load_key_from_pem(pem_str)` (src/utils.py lines 22-27): `none`
models the exceptions Python would raise (missing line 1, not three
comma-separated fields, non-numeric field). -/
def load_key_from_pem (pem : List Char) : Option RSAKey :=
  match (splitOnChar '\n' (pyStrip pem)).get? 1 with
  | none => none
  | some line =>
    let key_data := (b64Decode line).map Char.ofNat
    match splitOnChar ',' key_data with
    | [s1, s2, s3] =>
      if allDigits s1 ∧ allDigits s2 ∧ allDigits s3 then
        some ⟨parseNat s1, parseNat s2, parseNat s3⟩
      else none
    | _ => none

/-! ### Decimal render/parse round trip -/

theorem digit_char_toNat {d : ℕ} (hd : d < 10) : (Char.ofNat (48 + d)).toNat = 48 + d := by
  interval_cases d <;> decide

theorem natDigitsAux_lt : ∀ fuel n d, d ∈ natDigitsAux fuel n → d < 10 := by
  intro fuel
  induction fuel with
  | zero => intro n d h; simp [natDigitsAux] at h
  | succ fuel ih =>
    intro n d h
    rw [natDigitsAux] at h
    by_cases h0 : n = 0
    · rw [if_pos h0] at h; simp at h
    · rw [if_neg h0] at h
      rcases List.mem_cons.mp h with h | h
      · omega
      · exact ih (n / 10) d h

theorem parseDigits_natDigitsAux : ∀ fuel n, n ≤ fuel → parseDigits (natDigitsAux fuel n) = n := by
  intro fuel
  induction fuel with
  | zero => intro n h; interval_cases n; rfl
  | succ fuel ih =>
    intro n h
    by_cases h0 : n = 0
    · rw [natDigitsAux, if_pos h0, h0]; rfl
    · rw [natDigitsAux, if_neg h0, parseDigits, ih (n / 10) (by omega)]
      omega

theorem renderNat_digits (n : ℕ) : ∀ c ∈ renderNat n, 48 ≤ c.toNat ∧ c.toNat ≤ 57 := by
  intro c hc
  rw [renderNat] at hc
  by_cases h0 : n = 0
  · rw [if_pos h0] at hc
    rcases List.mem_singleton.mp hc with rfl
    decide
  · rw [if_neg h0] at hc
    obtain ⟨d, hd, rfl⟩ := List.mem_map.mp hc
    have hd10 : d < 10 := natDigitsAux_lt n n d (List.mem_reverse.mp hd)
    rw [digit_char_toNat hd10]
    omega

theorem renderNat_ne_nil (n : ℕ) : renderNat n ≠ [] := by
  rw [renderNat]
  by_cases h0 : n = 0
  · rw [if_pos h0]; simp
  · rw [if_neg h0]
    simp only [ne_eq, List.map_eq_nil_iff, List.reverse_eq_nil_iff]
    cases hn : n with
    | zero => omega
    | succ m =>
      rw [natDigitsAux, if_neg (by omega)]
      simp

theorem comma_not_mem_renderNat (n : ℕ) : ',' ∉ renderNat n := by
  intro hc
  have := renderNat_digits n ',' hc
  revert this
  decide

theorem allDigits_renderNat (n : ℕ) : allDigits (renderNat n) :=
  ⟨renderNat_ne_nil n, renderNat_digits n⟩

theorem parseNat_renderNat (n : ℕ) : parseNat (renderNat n) = n := by
  by_cases h0 : n = 0
  · subst h0; rfl
  · rw [renderNat, if_neg h0, parseNat, List.map_map]
    have hmap : (natDigitsAux n n).reverse.map
        ((fun c => c.toNat - 48) ∘ fun d => Char.ofNat (48 + d))
        = (natDigitsAux n n).reverse.map id := by
      apply List.map_congr_left
      intro d hd
      have hd10 : d < 10 := natDigitsAux_lt n n d (List.mem_reverse.mp hd)
      simp [Function.comp, digit_char_toNat hd10]
    rw [hmap, List.map_id, List.reverse_reverse]
    exact parseDigits_natDigitsAux n n le_rfl

/-! ### base64 round trip -/

theorem b64Char_props : ∀ i, i < 64 →
    b64Val (b64Char i) = i ∧ b64Char i ≠ '=' ∧ b64Char i ≠ '\n' := by decide

theorem b64_roundtrip : ∀ l : List ℕ, (∀ x ∈ l, x < 256) → b64Decode (b64Encode l) = l
  | [] => fun _ => rfl
  | [a] => fun h => by
    have ha : a < 256 := h a (by simp)
    have h1 := b64Char_props (a * 65536 / 262144) (by omega)
    have h2 := b64Char_props (a * 65536 / 4096 % 64) (by omega)
    simp [b64Encode, b64Decode, h1.1, h2.1]
    omega
  | [a, b] => fun h => by
    have ha : a < 256 := h a (by simp)
    have hb : b < 256 := h b (by simp)
    have h1 := b64Char_props ((a * 65536 + b * 256) / 262144) (by omega)
    have h2 := b64Char_props ((a * 65536 + b * 256) / 4096 % 64) (by omega)
    have h3 := b64Char_props ((a * 65536 + b * 256) / 64 % 64) (by omega)
    simp [b64Encode, b64Decode, h3.2.1, h1.1, h2.1, h3.1]
    constructor <;> omega
  | a :: b :: c :: rest => fun h => by
    have ha : a < 256 := h a (by simp)
    have hb : b < 256 := h b (by simp)
    have hc : c < 256 := h c (by simp)
    have hrest : ∀ x ∈ rest, x < 256 := fun x hx => h x (by simp [hx])
    have h1 := b64Char_props ((a * 65536 + b * 256 + c) / 262144) (by omega)
    have h2 := b64Char_props ((a * 65536 + b * 256 + c) / 4096 % 64) (by omega)
    have h3 := b64Char_props ((a * 65536 + b * 256 + c) / 64 % 64) (by omega)
    have h4 := b64Char_props ((a * 65536 + b * 256 + c) % 64) (by omega)
    simp [b64Encode, b64Decode, h3.2.1, h4.2.1, h1.1, h2.1, h3.1, h4.1]
    refine ⟨by omega, by omega, by omega, b64_roundtrip rest hrest⟩

theorem b64Encode_no_newline : ∀ l : List ℕ, (∀ x ∈ l, x < 256) → '\n' ∉ b64Encode l
  | [] => fun _ => by simp [b64Encode]
  | [a] => fun h => by
    have ha : a < 256 := h a (by simp)
    have h1 := b64Char_props (a * 65536 / 262144) (by omega)
    have h2 := b64Char_props (a * 65536 / 4096 % 64) (by omega)
    simp only [b64Encode, List.mem_cons, List.not_mem_nil]
    intro hmem
    rcases hmem with h' | h' | h' | h'
    · exact h1.2.2 h'.symm
    · exact h2.2.2 h'.symm
    · exact absurd h'.symm (by decide)
    · rcases h' with h' | h'
      · exact absurd h'.symm (by decide)
      · simp at h'
  | [a, b] => fun h => by
    have ha : a < 256 := h a (by simp)
    have hb : b < 256 := h b (by simp)
    have h1 := b64Char_props ((a * 65536 + b * 256) / 262144) (by omega)
    have h2 := b64Char_props ((a * 65536 + b * 256) / 4096 % 64) (by omega)
    have h3 := b64Char_props ((a * 65536 + b * 256) / 64 % 64) (by omega)
    simp only [b64Encode, List.mem_cons, List.not_mem_nil]
    intro hmem
    rcases hmem with h' | h' | h' | h' | h'
    · exact h1.2.2 h'.symm
    · exact h2.2.2 h'.symm
    · exact h3.2.2 h'.symm
    · exact absurd h'.symm (by decide)
    · simp at h'
  | a :: b :: c :: rest => fun h => by
    have ha : a < 256 := h a (by simp)
    have hb : b < 256 := h b (by simp)
    have hc : c < 256 := h c (by simp)
    have hrest : ∀ x ∈ rest, x < 256 := fun x hx => h x (by simp [hx])
    have h1 := b64Char_props ((a * 65536 + b * 256 + c) / 262144) (by omega)
    have h2 := b64Char_props ((a * 65536 + b * 256 + c) / 4096 % 64) (by omega)
    have h3 := b64Char_props ((a * 65536 + b * 256 + c) / 64 % 64) (by omega)
    have h4 := b64Char_props ((a * 65536 + b * 256 + c) % 64) (by omega)
    simp only [b64Encode, List.mem_cons]
    intro hmem
    rcases hmem with h' | h' | h' | h' | h'
    · exact h1.2.2 h'.symm
    · exact h2.2.2 h'.symm
    · exact h3.2.2 h'.symm
    · exact h4.2.2 h'.symm
    · exact b64Encode_no_newline rest hrest h'

/-! ### split and strip -/

theorem splitOnChar_no_sep (sep : Char) : ∀ s, sep ∉ s → splitOnChar sep s = [s] := by
  intro s
  induction s with
  | nil => intro _; rfl
  | cons c rest ih =>
    intro h
    have hc : ¬ (c = sep) := fun he => h (he ▸ List.mem_cons_self c rest)
    have hrest : sep ∉ rest := fun hm => h (List.mem_cons_of_mem c hm)
    rw [splitOnChar]
    simp only [ih hrest, if_neg hc]

theorem splitOnChar_append (sep : Char) :
    ∀ a r, sep ∉ a → splitOnChar sep (a ++ sep :: r) = a :: splitOnChar sep r := by
  intro a
  induction a with
  | nil =>
    intro r _
    simp [splitOnChar]
  | cons c a' ih =>
    intro r h
    have hc : ¬ (c = sep) := fun he => h (he ▸ List.mem_cons_self c a')
    have ha' : sep ∉ a' := fun hm => h (List.mem_cons_of_mem c hm)
    have : (c :: a') ++ sep :: r = c :: (a' ++ sep :: r) := rfl
    rw [this, splitOnChar]
    simp only [ih r ha', if_neg hc]

theorem pyStrip_eq_self (l : List Char) (h1 : ∃ t, l = '-' :: t)
    (h2 : ∃ s, l = s ++ ['-']) : pyStrip l = l := by
  obtain ⟨t, ht⟩ := h1
  obtain ⟨s, hs⟩ := h2
  have hdash : Char.isWhitespace '-' = false := by decide
  rw [pyStrip]
  have hdrop1 : l.dropWhile Char.isWhitespace = l := by
    rw [ht, List.dropWhile]
    simp [hdash]
  rw [hdrop1]
  have hrev : l.reverse = '-' :: s.reverse := by
    rw [hs, List.reverse_append]
    rfl
  have hdrop2 : l.reverse.dropWhile Char.isWhitespace = l.reverse := by
    rw [hrev, List.dropWhile]
    simp [hdash]
  rw [hdrop2, List.reverse_reverse]

/-! ### Assembling the round trip -/

theorem key_data_bytes_lt (n e d : ℕ) :
    ∀ x ∈ ((renderNat n ++ [','] ++ renderNat e ++ [','] ++ renderNat d).map Char.toNat),
      x < 256 := by
  intro x hx
  obtain ⟨c, hc, rfl⟩ := List.mem_map.mp hx
  simp only [List.append_assoc, List.mem_append, List.mem_singleton] at hc
  rcases hc with h | h | h | h | h
  · have := renderNat_digits n c h; omega
  · subst h; decide
  · have := renderNat_digits e c h; omega
  · subst h; decide
  · have := renderNat_digits d c h; omega

theorem splitOnChar_key_data (n e d : ℕ) :
    splitOnChar ',' (renderNat n ++ [','] ++ renderNat e ++ [','] ++ renderNat d)
      = [renderNat n, renderNat e, renderNat d] := by
  have hassoc : renderNat n ++ [','] ++ renderNat e ++ [','] ++ renderNat d
      = renderNat n ++ ',' :: (renderNat e ++ ',' :: renderNat d) := by
    simp
  rw [hassoc, splitOnChar_append ',' _ _ (comma_not_mem_renderNat n),
    splitOnChar_append ',' _ _ (comma_not_mem_renderNat e),
    splitOnChar_no_sep ',' _ (comma_not_mem_renderNat d)]

/-- The decode of any well-formed three-line block whose payload
encodes `"<n>,<e>,<d>"`. -/
theorem load_of_parts (H F : List Char) (n e d : ℕ)
    (hH1 : ∃ t, H = '-' :: t) (hF1 : ∃ s, F = s ++ ['-'])
    (hHn : '\n' ∉ H) (hFn : '\n' ∉ F) :
    load_key_from_pem (H ++ '\n' ::
        (b64Encode ((renderNat n ++ [','] ++ renderNat e ++ [','] ++ renderNat d).map
          Char.toNat) ++ '\n' :: F))
      = some ⟨n, e, d⟩ := by
  set kd := renderNat n ++ [','] ++ renderNat e ++ [','] ++ renderNat d with hkd
  set enc := b64Encode (kd.map Char.toNat) with henc
  set pem := H ++ '\n' :: (enc ++ '\n' :: F) with hpem
  have hbytes := key_data_bytes_lt n e d
  have hnl_enc : '\n' ∉ enc := b64Encode_no_newline _ hbytes
  have hstrip : pyStrip pem = pem := by
    apply pyStrip_eq_self
    · obtain ⟨t, ht⟩ := hH1
      exact ⟨t ++ '\n' :: (enc ++ '\n' :: F), by rw [hpem, ht]; simp⟩
    · obtain ⟨s, hs⟩ := hF1
      exact ⟨H ++ '\n' :: (enc ++ '\n' :: s), by rw [hpem, hs]; simp⟩
  have hsplit : splitOnChar '\n' pem = [H, enc, F] := by
    rw [hpem, splitOnChar_append '\n' H _ hHn, splitOnChar_append '\n' enc _ hnl_enc,
      splitOnChar_no_sep '\n' F hFn]
  rw [load_key_from_pem, hstrip, hsplit]
  simp only [List.get?]
  have hdec : b64Decode enc = kd.map Char.toNat := b64_roundtrip _ hbytes
  rw [hdec, List.map_map]
  have hmapid : kd.map (Char.ofNat ∘ Char.toNat) = kd := by
    apply List.map_congr_left ?_ |>.trans (List.map_id kd)
    intro c _
    exact Char.ofNat_toNat c
  rw [hmapid, hkd, splitOnChar_key_data]
  show (if allDigits (renderNat n) ∧ allDigits (renderNat e) ∧ allDigits (renderNat d) then
      some (⟨parseNat (renderNat n), parseNat (renderNat e), parseNat (renderNat d)⟩ : RSAKey)
    else none) = some ⟨n, e, d⟩
  rw [if_pos ⟨allDigits_renderNat n, allDigits_renderNat e, allDigits_renderNat d⟩]
  rw [parseNat_renderNat, parseNat_renderNat, parseNat_renderNat]

/-- What the codec round trip actually does for each flag value. -/
theorem load_save_key (key : RSAKey) (h_private : Bool) :
    load_key_from_pem (save_key_to_pem key h_private)
      = some ⟨key.n, key.e, if h_private then key.d else 0⟩ := by
  cases h_private
  · exact load_of_parts _ _ key.n key.e 0
      ⟨_, rfl⟩ ⟨"-----END RSA PUBLIC KEY----".toList, rfl⟩ (by decide) (by decide)
  · exact load_of_parts _ _ key.n key.e key.d
      ⟨_, rfl⟩ ⟨"-----END RSA PRIVATE KEY----".toList, rfl⟩ (by decide) (by decide)

/-- Counterexample to claim C7 as stated: with the source's default
`is_private=False`, saving the key `(1, 1, 1)` writes `d` as `0`, so
decoding does not reconstruct the key. -/
theorem pem_roundtrip_default_loses_d :
    load_key_from_pem (save_key_to_pem (RSAKey.mk 1 1 1) false) = some (RSAKey.mk 1 1 0) ∧
    RSAKey.mk 1 1 0 ≠ RSAKey.mk 1 1 1 :=
  ⟨by decide, by decide⟩

/-- Claim C7 (amended: the round trip reconstructs `k` when the key is
saved with `is_private=True`, or when `k.d = 0`; with the default
`is_private=False` the third component is replaced by the sentinel `0`,
so `load(save(k)) = (k.n, k.e, 0)`, which equals `k` only when
`k.d = 0`): for every key `k` (any triple of non-negative integers),
`load_key_from_pem(save_key_to_pem(k, true)) = k` and
`load_key_from_pem(save_key_to_pem(k, false)) = (k.n, k.e, 0)`. -/
theorem pem_roundtrip_spec (key : RSAKey) :
    load_key_from_pem (save_key_to_pem key true) = some key ∧
    load_key_from_pem (save_key_to_pem key false) = some ⟨key.n, key.e, 0⟩ := by
  constructor
  · simpa using load_save_key key true
  · simpa using load_save_key key false

end RSA
